import Mathlib

/-!
Verification of the core logic of the `claude-skills` repository
(`n8ncli`): the token-usage extractor (`scripts/token-extractor.js`),
the workflow-graph diff engine and the update-payload construction
(`src/cli.js`), and the trace filter layer (spec §4.2).

JavaScript values are embedded as a JSON-like inductive `JsonV`;
`undefined` and `null` are conflated into `JsonV.null` (both are falsy,
both stop `?.` property chains, and neither is recursed into), which is
the only behaviour the translated code observes.
-/

set_option maxHeartbeats 1000000
set_option maxRecDepth 4000

/-- A JSON-like JavaScript value. Numbers are modelled as integers; no
claim in scope depends on fractional values. Object fields are an ordered
association list (JS objects preserve insertion order and have unique
keys). -/
inductive JsonV where
  | null
  | bool (b : Bool)
  | num (n : Int)
  | str (s : String)
  | arr (elems : List JsonV)
  | obj (fields : List (String × JsonV))

namespace JsonV

mutual
/-- Boolean structural equality on `JsonV`. -/
def jeq : JsonV → JsonV → Bool
  | .null, .null => true
  | .bool a, .bool b => a == b
  | .num a, .num b => a == b
  | .str a, .str b => a == b
  | .arr xs, .arr ys => jeqList xs ys
  | .obj fs, .obj gs => jeqFields fs gs
  | _, _ => false
/-- Element-wise `jeq` on value lists. -/
def jeqList : List JsonV → List JsonV → Bool
  | [], [] => true
  | x :: xs, y :: ys => jeq x y && jeqList xs ys
  | _, _ => false
/-- Element-wise `jeq` on field lists. -/
def jeqFields : List (String × JsonV) → List (String × JsonV) → Bool
  | [], [] => true
  | (k, v) :: fs, (k', v') :: gs => k == k' && jeq v v' && jeqFields fs gs
  | _, _ => false
end

mutual
theorem jeq_iff : ∀ (a b : JsonV), jeq a b = true ↔ a = b
  | .null, .null => by simp [jeq]
  | .bool _, .bool _ => by simp [jeq]
  | .num _, .num _ => by simp [jeq]
  | .str _, .str _ => by simp [jeq]
  | .arr xs, .arr ys => by simp [jeq, jeqList_iff xs ys]
  | .obj fs, .obj gs => by simp [jeq, jeqFields_iff fs gs]
  | .null, .bool _ | .null, .num _ | .null, .str _ | .null, .arr _ | .null, .obj _
  | .bool _, .null | .bool _, .num _ | .bool _, .str _ | .bool _, .arr _ | .bool _, .obj _
  | .num _, .null | .num _, .bool _ | .num _, .str _ | .num _, .arr _ | .num _, .obj _
  | .str _, .null | .str _, .bool _ | .str _, .num _ | .str _, .arr _ | .str _, .obj _
  | .arr _, .null | .arr _, .bool _ | .arr _, .num _ | .arr _, .str _ | .arr _, .obj _
  | .obj _, .null | .obj _, .bool _ | .obj _, .num _ | .obj _, .str _ | .obj _, .arr _ =>
    by simp [jeq]
theorem jeqList_iff : ∀ (xs ys : List JsonV), jeqList xs ys = true ↔ xs = ys
  | [], [] => by simp [jeqList]
  | x :: xs, y :: ys => by simp [jeqList, jeq_iff x y, jeqList_iff xs ys]
  | [], _ :: _ | _ :: _, [] => by simp [jeqList]
theorem jeqFields_iff : ∀ (fs gs : List (String × JsonV)),
    jeqFields fs gs = true ↔ fs = gs
  | [], [] => by simp [jeqFields]
  | (k, v) :: fs, (k', v') :: gs => by
    simp [jeqFields, jeq_iff v v', jeqFields_iff fs gs]
  | [], _ :: _ | _ :: _, [] => by simp [jeqFields]
end

instance : DecidableEq JsonV := fun a b => decidable_of_iff _ (jeq_iff a b)

/-- JavaScript truthiness: `null`/`undefined`, `false`, `0` and `""` are
falsy; every object and array (even empty) is truthy. -/
def jsTruthy : JsonV → Bool
  | .null => false
  | .bool b => b
  | .num n => n != 0
  | .str s => s != ""
  | .arr _ => true
  | .obj _ => true

/-- Property access `v.k`: on an object, the value of the field named `k`
(JS objects have unique keys; the first match is taken); on anything else
— including the `null` produced by a previous failed access, matching
`?.` chains — the result is `undefined`, modelled as `.null`. -/
def jsGet (v : JsonV) (k : String) : JsonV :=
  match v with
  | .obj fs =>
    match fs.find? (fun f => f.1 == k) with
    | some f => f.2
    | none => .null
  | _ => .null

/-- JavaScript `a || b`: `a` when truthy, otherwise `b`. -/
def jsOr (a b : JsonV) : JsonV :=
  if jsTruthy a then a else b

/-- The element list of an array value; non-arrays contribute nothing. -/
def jsElems : JsonV → List JsonV
  | .arr xs => xs
  | _ => []

/-- The values satisfying `typeof v === 'object' && v !== null`. -/
def isObjOrArr : JsonV → Bool
  | .arr _ => true
  | .obj _ => true
  | _ => false

/-- The top-level keys of an object value. -/
def topKeys : JsonV → List String
  | .obj fs => fs.map (fun f => f.1)
  | _ => []

mutual
/-- JavaScript `String(v)` conversion, as used by template literals:
`String(null) = "null"`, arrays join their elements with `","` (with
`null` elements printing as empty), plain objects print
`"[object Object]"`. -/
def jsString : JsonV → String
  | .null => "null"
  | .bool b => if b then "true" else "false"
  | .num n => toString n
  | .str s => s
  | .arr xs => jsStringElems xs
  | .obj _ => "[object Object]"
/-- Comma-joined array element conversion of `Array.prototype.toString`. -/
def jsStringElems : List JsonV → String
  | [] => ""
  | [x] =>
    match x with
    | .null => ""
    | v => jsString v
  | x :: y :: rest =>
    (match x with
     | .null => ""
     | v => jsString v) ++ "," ++ jsStringElems (y :: rest)
end

/-- JavaScript `+` restricted to what the translated code exercises:
number addition; any other combination falls back to string
concatenation of the converted operands. -/
def jsAdd (a b : JsonV) : JsonV :=
  match a, b with
  | .num x, .num y => .num (x + y)
  | _, _ => .str (jsString a ++ jsString b)

/-- One escaped character of a JSON string literal. -/
def escChar (c : Char) : String :=
  if c = '"' then "\\\""
  else if c = '\\' then "\\\\"
  else if c = '\n' then "\\n"
  else String.singleton c

/-- Escape the characters of a string for a JSON string literal. -/
def escapeStr (s : String) : String :=
  String.join (s.toList.map escChar)

mutual
/-- Order-sensitive JSON serialization, mirroring `JSON.stringify`:
object fields are emitted in their stored order, so two objects with the
same fields in different orders serialize differently. -/
def jsonStr : JsonV → String
  | .null => "null"
  | .bool b => if b then "true" else "false"
  | .num n => toString n
  | .str s => "\"" ++ escapeStr s ++ "\""
  | .arr xs => "[" ++ jsonStrElems xs ++ "]"
  | .obj fs => "\x7b" ++ jsonStrFields fs ++ "\x7d"
/-- Comma-joined serialization of array elements. -/
def jsonStrElems : List JsonV → String
  | [] => ""
  | [x] => jsonStr x
  | x :: y :: rest => jsonStr x ++ "," ++ jsonStrElems (y :: rest)
/-- Comma-joined serialization of object fields. -/
def jsonStrFields : List (String × JsonV) → String
  | [] => ""
  | [(k, v)] => "\"" ++ escapeStr k ++ "\":" ++ jsonStr v
  | (k, v) :: g :: rest =>
    "\"" ++ escapeStr k ++ "\":" ++ jsonStr v ++ "," ++ jsonStrFields (g :: rest)
end

/-- The integer of a number value; other values read as `0`. Used only to
STATE numeric facts about values already assumed to be numbers. -/
def toIntJ : JsonV → Int
  | .num n => n
  | _ => 0

/-- Whether a value is a number. -/
def isNumJ : JsonV → Bool
  | .num _ => true
  | _ => false

end JsonV

open JsonV

/-! ## Token extractor (`scripts/token-extractor.js`) -/

/-- One raw hit of `findTokenUsage`: the pushed
`{ path, tokenUsage, model }` record. -/
structure TokenHit where
  path : String
  tokenUsage : JsonV
  model : JsonV
deriving DecidableEq

/-- The `model_name || model || modelName || 'unknown'` fallback chain of
the `tokenUsage` check (token-extractor.js line 49). -/
def modelChain3 (v : JsonV) : JsonV :=
  jsOr (jsGet v "model_name") (jsOr (jsGet v "model") (jsOr (jsGet v "modelName") (.str "unknown")))

/-- The three non-recursive checks of `findTokenUsage`
(token-extractor.js lines 44–73): a truthy `tokenUsage` property, a
truthy `llmOutput.tokenUsage`, and an OpenAI-style `usage` object gated
on `prompt_tokens || completion_tokens`. -/
def checkHits (v : JsonV) (path : String) : List TokenHit :=
  (if jsTruthy (jsGet v "tokenUsage") then
    [⟨path, jsGet v "tokenUsage", modelChain3 v⟩]
  else []) ++
  (let l := jsGet v "llmOutput"
   if jsTruthy (jsGet l "tokenUsage") then
    [⟨(if path = "" then "llmOutput" else path ++ ".llmOutput"),
      jsGet l "tokenUsage",
      jsOr (jsGet l "model_name") (jsOr (jsGet l "model") (.str "unknown"))⟩]
  else []) ++
  (let u := jsGet v "usage"
   if jsTruthy u && (jsTruthy (jsGet u "prompt_tokens") || jsTruthy (jsGet u "completion_tokens")) then
    [⟨path,
      .obj [("promptTokens", jsGet u "prompt_tokens"),
            ("completionTokens", jsGet u "completion_tokens"),
            ("totalTokens", jsGet u "total_tokens")],
      jsOr (jsGet v "model") (.str "unknown")⟩]
  else [])

mutual
/-- Recursive token-usage search of `findTokenUsage`
(token-extractor.js lines 37–90): non-objects yield nothing; otherwise
the three checks run, then the search recurses into every array element
and into every object field holding an object or array. -/
def findTokenUsage : JsonV → String → List TokenHit
  | .arr xs, path => checkHits (.arr xs) path ++ ftuArr xs path 0
  | .obj fs, path => checkHits (.obj fs) path ++ ftuFields fs path
  | _, _ => []
/-- Array recursion of `findTokenUsage`, indices threaded into paths. -/
def ftuArr : List JsonV → String → Nat → List TokenHit
  | [], _, _ => []
  | x :: xs, path, i =>
    findTokenUsage x (path ++ "[" ++ toString i ++ "]") ++ ftuArr xs path (i + 1)
/-- Object-field recursion of `findTokenUsage`, guarded by
`typeof value === 'object' && value !== null`. -/
def ftuFields : List (String × JsonV) → String → List TokenHit
  | [], _ => []
  | (k, v) :: fs, path =>
    (if isObjOrArr v then
      findTokenUsage v (if path = "" then k else path ++ "." ++ k)
    else []) ++ ftuFields fs path
end

/-- One entry of `results.nodes` before deduplication: the `nodeResult`
record of `extractTokenUsage` (token-extractor.js lines 131–137). -/
structure NodeUsage where
  nodeName : String
  model : JsonV
  promptTokens : JsonV
  completionTokens : JsonV
  totalTokens : JsonV
deriving DecidableEq

/-- The `usage.camel || usage.snake || 0` token-field fallback. -/
def tokField (u : JsonV) (k1 k2 : String) : JsonV :=
  jsOr (jsGet u k1) (jsOr (jsGet u k2) (.num 0))

/-- Turn one `findTokenUsage` hit into a `nodeResult` record. -/
def hitToUsage (nodeName : String) (h : TokenHit) : NodeUsage :=
  { nodeName := nodeName
    model := h.model
    promptTokens := tokField h.tokenUsage "promptTokens" "prompt_tokens"
    completionTokens := tokField h.tokenUsage "completionTokens" "completion_tokens"
    totalTokens := tokField h.tokenUsage "totalTokens" "total_tokens" }

/-- The `Object.entries` field list of a value (objects only; the
extractor only ever applies it to the `runData` object). -/
def jsEntries : JsonV → List (String × JsonV)
  | .obj fs => fs
  | _ => []

/-- All `nodeResult` records pushed onto `results.nodes` before
deduplication (token-extractor.js lines 118–146): for every
`(nodeName, nodeRuns)` entry of `runData`, skipping non-array run lists,
every run is searched with `findTokenUsage`. -/
def extractEntries (execution : JsonV) : List NodeUsage :=
  let rd := jsGet (jsGet (jsGet execution "data") "resultData") "runData"
  if jsTruthy rd then
    (jsEntries rd).flatMap (fun e =>
      match e.2 with
      | .arr runs => runs.flatMap (fun run => (findTokenUsage run "").map (hitToUsage e.1))
      | _ => [])
  else []

/-- The string key `` `${node.nodeName}-${node.model}` `` of the
deduplication map (token-extractor.js line 151). -/
def usageKey (e : NodeUsage) : String :=
  e.nodeName ++ "-" ++ jsString e.model

/-- Accumulate a colliding entry into an existing map entry
(token-extractor.js lines 153–156). -/
def addTokens (r e : NodeUsage) : NodeUsage :=
  { r with
    promptTokens := jsAdd r.promptTokens e.promptTokens
    completionTokens := jsAdd r.completionTokens e.completionTokens
    totalTokens := jsAdd r.totalTokens e.totalTokens }

/-- `Map.set`-style insertion for the deduplication pass: the first entry
with the same string key accumulates; a new key appends at the end,
preserving insertion order. -/
def insertEntry : List NodeUsage → NodeUsage → List NodeUsage
  | [], e => [e]
  | r :: rs, e =>
    if usageKey r = usageKey e then addTokens r e :: rs
    else r :: insertEntry rs e

/-- The deduplication pass over `results.nodes`
(token-extractor.js lines 148–161). -/
def dedupNodes (entries : List NodeUsage) : List NodeUsage :=
  entries.foldl insertEntry []

/-- The running totals of `extractTokenUsage`: each pushed entry's field
is `+=`-ed onto an initial `0`. -/
def sumTokens (f : NodeUsage → JsonV) (entries : List NodeUsage) : JsonV :=
  entries.foldl (fun acc e => jsAdd acc (f e)) (.num 0)

/-- The `results.totals` record. -/
structure Totals where
  promptTokens : JsonV
  completionTokens : JsonV
  totalTokens : JsonV
deriving DecidableEq

/-- The value returned by `extractTokenUsage`. -/
structure TokenResults where
  executionId : JsonV
  workflowId : JsonV
  status : JsonV
  startedAt : JsonV
  stoppedAt : JsonV
  nodes : List NodeUsage
  totals : Totals
deriving DecidableEq

/-- `extractTokenUsage` (token-extractor.js lines 95–164): header fields
copied from the execution, a guard returning empty results when
`data?.resultData?.runData` is falsy, per-run `findTokenUsage` collection
with running totals, and a final string-keyed deduplication of the node
list. -/
def extractTokenUsage (execution : JsonV) : TokenResults :=
  let entries := extractEntries execution
  { executionId := jsGet execution "id"
    workflowId := jsGet execution "workflowId"
    status := jsGet execution "status"
    startedAt := jsGet execution "startedAt"
    stoppedAt := jsGet execution "stoppedAt"
    nodes := dedupNodes entries
    totals :=
      { promptTokens := sumTokens (fun e => e.promptTokens) entries
        completionTokens := sumTokens (fun e => e.completionTokens) entries
        totalTokens := sumTokens (fun e => e.totalTokens) entries } }

/-! ## Workflow graph diff (`src/cli.js`, `workflow diff` subcommand) -/

/-- A workflow node as described by spec §3: `name` is the diff key; only
`parameters` takes part in the diff equality check. -/
structure WNode where
  id : String
  name : String
  nodeType : String
  typeVersion : JsonV
  position : JsonV
  parameters : JsonV
  credentials : JsonV
  webhookId : JsonV
deriving DecidableEq

/-- The node a `new Map(nodes.map(n => [n.name, n]))` lookup returns:
for duplicate names the LAST node wins (`Map.set` overwrites). -/
def lastByName (ns : List WNode) (x : String) : Option WNode :=
  (ns.filter (fun n => n.name = x)).getLast?

/-- First-occurrence deduplication with an explicit seen accumulator —
the iteration order of JS `Map` keys and `Set` elements. -/
def dedupFirstAux (seen : List String) : List String → List String
  | [] => []
  | x :: xs =>
    if x ∈ seen then dedupFirstAux seen xs
    else x :: dedupFirstAux (x :: seen) xs

/-- First-occurrence deduplication of a name list. -/
def dedupFirst (l : List String) : List String :=
  dedupFirstAux [] l

/-- The key list of `new Map(nodes.map(n => [n.name, n]))`: each name at
its first occurrence, in order. -/
def mapKeys (ns : List WNode) : List String :=
  dedupFirst (ns.map (fun n => n.name))

/-- `allNodeNames`: the `Set` built from both maps' key lists
(cli.js line 474), in insertion order. -/
def allNodeNames (a b : List WNode) : List String :=
  dedupFirst (mapKeys a ++ mapKeys b)

/-- The four diff buckets. -/
inductive Bucket where
  | added
  | removed
  | modified
  | unchanged
deriving DecidableEq

/-- Classification of one name (cli.js lines 481–497): absent in the
first graph ⇒ added, absent in the second ⇒ removed, otherwise compare
the `JSON.stringify` serializations of the two nodes' `parameters`. -/
def classifyName (a b : List WNode) (x : String) : Bucket :=
  match lastByName a x, lastByName b x with
  | none, _ => .added
  | some _, none => .removed
  | some n1, some n2 =>
    if jsonStr n1.parameters ≠ jsonStr n2.parameters then .modified else .unchanged

/-- The diff result: four name lists. -/
structure DiffResult where
  added : List String
  removed : List String
  modified : List String
  unchanged : List String
deriving DecidableEq

/-- The classification loop over a name list, pushing each name into
exactly one bucket in iteration order. -/
def diffGo (a b : List WNode) : List String → DiffResult
  | [] => ⟨[], [], [], []⟩
  | x :: xs =>
    let d := diffGo a b xs
    match classifyName a b x with
    | .added => { d with added := x :: d.added }
    | .removed => { d with removed := x :: d.removed }
    | .modified => { d with modified := x :: d.modified }
    | .unchanged => { d with unchanged := x :: d.unchanged }

/-- The workflow diff engine (cli.js lines 471–499), as a function of the
two graphs' node lists. -/
def diffWorkflows (a b : List WNode) : DiffResult :=
  diffGo a b (allNodeNames a b)

/-! ## Update-payload construction (`src/cli.js`, `workflow update` and
`workflow set-code` subcommands) -/

/-- Replace the value of field `k` in place (JS property assignment on an
object with unique keys), appending when the field is absent; assignment
on a non-object is a silent no-op. -/
def setFieldFs : List (String × JsonV) → String → JsonV → List (String × JsonV)
  | [], k, x => [(k, x)]
  | (k', v) :: fs, k, x =>
    if k' = k then (k', x) :: fs else (k', v) :: setFieldFs fs k x

/-- Property assignment `v.k = x` on a `JsonV`. -/
def jsSetField (v : JsonV) (k : String) (x : JsonV) : JsonV :=
  match v with
  | .obj fs => .obj (setFieldFs fs k x)
  | other => other

/-- `Map.set` on the name-keyed credentials map: an existing key is
overwritten in place, a new key appends. -/
def credsSet : List (JsonV × JsonV) → JsonV → JsonV → List (JsonV × JsonV)
  | [], k, c => [(k, c)]
  | (k', c') :: m, k, c =>
    if k' = k then (k', c) :: m else (k', c') :: credsSet m k c

/-- `Map.get`-style lookup on the credentials map. -/
def credsFind (m : List (JsonV × JsonV)) (k : JsonV) : Option JsonV :=
  (m.find? (fun p => p.1 = k)).map (fun p => p.2)

/-- The `existingCreds` map of the `workflow update` path
(cli.js lines 339–344): every node of the previously fetched workflow
with truthy `credentials` is entered under its `name`. -/
def buildCredsMap (nodes : List JsonV) : List (JsonV × JsonV) :=
  nodes.foldl
    (fun m node =>
      if jsTruthy (jsGet node "credentials") then
        credsSet m (jsGet node "name") (jsGet node "credentials")
      else m)
    []

/-- The per-node credentials merge of the `workflow update` path
(cli.js lines 347–352): a node without truthy credentials receives the
map entry for its name, when one exists; all other nodes pass through
untouched. -/
def mergeNodeCreds (m : List (JsonV × JsonV)) (node : JsonV) : JsonV :=
  if jsTruthy (jsGet node "credentials") then node
  else
    match credsFind m (jsGet node "name") with
    | some c => jsSetField node "credentials" c
    | none => node

/-- The payload the `workflow update` subcommand sends
(cli.js lines 335–355): the file's workflow object, with the credentials
merge applied to its `nodes` when that field is truthy — and no
stripping of any top-level field. -/
def buildUpdatePayload (workflowData existing : JsonV) : JsonV :=
  let m := buildCredsMap (jsElems (jsGet existing "nodes"))
  if jsTruthy (jsGet workflowData "nodes") then
    jsSetField workflowData "nodes"
      (.arr ((jsElems (jsGet workflowData "nodes")).map (mergeNodeCreds m)))
  else workflowData

/-- The node projection of the `set-code` payload
(cli.js lines 432–441): exactly the eight listed node fields. -/
def stripNode (n : JsonV) : JsonV :=
  .obj [("id", jsGet n "id"), ("name", jsGet n "name"), ("type", jsGet n "type"),
        ("typeVersion", jsGet n "typeVersion"), ("position", jsGet n "position"),
        ("parameters", jsGet n "parameters"), ("credentials", jsGet n "credentials"),
        ("webhookId", jsGet n "webhookId")]

/-- The `updatePayload` of the `set-code` subcommand
(cli.js lines 429–445): exactly the four accepted top-level fields, with
each node projected by `stripNode`. -/
def buildSetCodePayload (w : JsonV) : JsonV :=
  .obj [("name", jsGet w "name"),
        ("nodes", .arr ((jsElems (jsGet w "nodes")).map stripNode)),
        ("connections", jsGet w "connections"),
        ("settings", jsGet w "settings")]

/-- The accepted top-level field set of a workflow update (spec §4.5). -/
def acceptedTopFields : List String :=
  ["name", "nodes", "connections", "settings"]

/-! ## Trace filter layer (spec §4.2) -/

/-- One per-run entry of a built `Trace` (spec §3). -/
structure NodeTraceEntry where
  name : String
  runIndex : Nat
  status : String
  startTime : JsonV
  executionTime : JsonV
  input : Option (List String)
  output : Option (List (String × List JsonV))
deriving DecidableEq

/-- A built execution trace (spec §3). -/
structure Trace where
  executionId : JsonV
  workflowId : JsonV
  status : JsonV
  startedAt : JsonV
  stoppedAt : JsonV
  duration : String
  nodes : List NodeTraceEntry
deriving DecidableEq

/-- Boolean substring test on character lists. -/
def containsSub (needle : List Char) : List Char → Bool
  | [] => needle.isEmpty
  | c :: rest => needle.isPrefixOf (c :: rest) || containsSub needle rest

/-- Case-insensitive substring match between two strings. -/
def containsCI (s pat : String) : Bool :=
  containsSub pat.toLower.toList s.toLower.toList

/-- Modelled from the spec: `filterByName` of the Filter Layer (§4.2).
The implementing file (`execution-details.js`, `filterNodesByName`) is
imported by `src/cli.js` but is not among the provided sources. Returns
a new `Trace` with the same top-level fields and only the entries whose
`name` matches the pattern case-insensitively as a substring. -/
def filterByName (t : Trace) (pat : String) : Trace :=
  { t with nodes := t.nodes.filter (fun e => containsCI e.name pat) }

/-- Modelled from the spec: `filterFailed` of the Filter Layer (§4.2).
The implementing file (`execution-details.js`, `filterFailedNodes`) is
imported by `src/cli.js` but is not among the provided sources. Keeps
entries whose `status` is `"error"` or `"failed"`. -/
def filterFailed (t : Trace) : Trace :=
  { t with nodes := t.nodes.filter (fun e => e.status == "error" || e.status == "failed") }

/-- Whether all three token fields of an entry are numbers. -/
def entryNumeric (e : NodeUsage) : Bool :=
  isNumJ e.promptTokens && isNumJ e.completionTokens && isNumJ e.totalTokens

/-- A minimal execution whose single run carries its token usage only
inside an `llmOutput` field (the shape produced by LangChain model
nodes). -/
def llmRunExec (n : String) (p c t : Int) : JsonV :=
  .obj [("data", .obj [("resultData", .obj [("runData", .obj [(n, .arr
    [.obj [("llmOutput", .obj [("tokenUsage", .obj
      [("promptTokens", .num p), ("completionTokens", .num c),
       ("totalTokens", .num t)])])]])])])])]

/-- The node-usage record each of the two extraction passes produces for
a run of `llmRunExec`. -/
def llmRunUsage (n : String) (p c t : Int) : NodeUsage :=
  ⟨n, .str "unknown", .num p, .num c, .num t⟩

/-- An execution with two nodes, `"a-b"` (model `"c"`) and `"a"`
(model `"b-c"`): the two distinct `(nodeName, model)` pairs share the
dedup string key `"a-b-c"`. -/
def collideExec : JsonV :=
  .obj [("data", .obj [("resultData", .obj [("runData", .obj
    [("a-b", .arr [.obj [("tokenUsage", .obj
        [("promptTokens", .num 10), ("completionTokens", .num 1),
         ("totalTokens", .num 11)]),
      ("model", .str "c")]]),
     ("a", .arr [.obj [("tokenUsage", .obj
        [("promptTokens", .num 20), ("completionTokens", .num 2),
         ("totalTokens", .num 22)]),
      ("model", .str "b-c")]])])])])]

/-- Lookup of a deduplication-map entry by its string key. -/
def findByKey (l : List NodeUsage) (k : String) : Option NodeUsage :=
  l.find? (fun r => usageKey r = k)

/-! ## Evaluation lemmas for the embedded JavaScript primitives -/

namespace JsonV

@[simp] theorem jsGet_null (k : String) : jsGet .null k = .null := rfl
@[simp] theorem jsGet_bool (b : Bool) (k : String) : jsGet (.bool b) k = .null := rfl
@[simp] theorem jsGet_num (n : Int) (k : String) : jsGet (.num n) k = .null := rfl
@[simp] theorem jsGet_str (s k : String) : jsGet (.str s) k = .null := rfl
@[simp] theorem jsGet_arr (xs : List JsonV) (k : String) : jsGet (.arr xs) k = .null := rfl
@[simp] theorem jsGet_obj_nil (k : String) : jsGet (.obj []) k = .null := rfl

@[simp] theorem jsGet_obj_cons (k' : String) (v : JsonV) (fs : List (String × JsonV))
    (k : String) :
    jsGet (.obj ((k', v) :: fs)) k = if k' = k then v else jsGet (.obj fs) k := by
  by_cases h : k' = k
  · simp [jsGet, List.find?, h]
  · have hb : (k' == k) = false := by simp [h]
    simp [jsGet, List.find?, h, hb]

@[simp] theorem jsTruthy_null : jsTruthy .null = false := rfl
@[simp] theorem jsTruthy_bool (b : Bool) : jsTruthy (.bool b) = b := rfl
@[simp] theorem jsTruthy_num (n : Int) : jsTruthy (.num n) = (n != 0) := rfl
@[simp] theorem jsTruthy_str (s : String) : jsTruthy (.str s) = (s != "") := rfl
@[simp] theorem jsTruthy_arr (xs : List JsonV) : jsTruthy (.arr xs) = true := rfl
@[simp] theorem jsTruthy_obj (fs : List (String × JsonV)) : jsTruthy (.obj fs) = true := rfl

@[simp] theorem jsOr_of_truthy {a : JsonV} (b : JsonV) (h : jsTruthy a = true) :
    jsOr a b = a := by simp [jsOr, h]

@[simp] theorem jsOr_of_falsy {a : JsonV} (b : JsonV) (h : jsTruthy a = false) :
    jsOr a b = b := by simp [jsOr, h]

@[simp] theorem jsOr_null (b : JsonV) : jsOr .null b = b := rfl

@[simp] theorem jsAdd_num (x y : Int) : jsAdd (.num x) (.num y) = .num (x + y) := rfl

end JsonV

/-! ## C5: graceful degradation when `data.resultData.runData` is absent -/

theorem extractEntries_of_falsy_runData (execution : JsonV)
    (h : jsTruthy (jsGet (jsGet (jsGet execution "data") "resultData") "runData") = false) :
    extractEntries execution = [] := by
  unfold extractEntries
  simp [h]

/-- C5: whenever the nested field `data.resultData.runData` is absent (or
otherwise falsy — `execution.data` missing, `resultData` missing, or
`runData` missing all make the chain `null`), `extractTokenUsage` does
not fail: it returns the copied header fields together with an empty
`nodes` list and zero totals. The embedding is a total function, so
"does not throw" is witnessed by the equation itself. -/
theorem c5_missing_runData_graceful (execution : JsonV)
    (h : jsTruthy (jsGet (jsGet (jsGet execution "data") "resultData") "runData") = false) :
    extractTokenUsage execution =
      { executionId := jsGet execution "id"
        workflowId := jsGet execution "workflowId"
        status := jsGet execution "status"
        startedAt := jsGet execution "startedAt"
        stoppedAt := jsGet execution "stoppedAt"
        nodes := []
        totals := ⟨.num 0, .num 0, .num 0⟩ } := by
  have he := extractEntries_of_falsy_runData execution h
  unfold extractTokenUsage
  rw [he]
  rfl

/-- Witness for C5 at a concrete execution lacking `data` entirely. -/
theorem c5_missing_runData_graceful_witness :
    jsTruthy (jsGet (jsGet (jsGet (JsonV.obj [("id", .str "42"), ("status", .str "success")]) "data") "resultData") "runData") = false ∧
    extractTokenUsage (JsonV.obj [("id", .str "42"), ("status", .str "success")]) =
      { executionId := .str "42"
        workflowId := .null
        status := .str "success"
        startedAt := .null
        stoppedAt := .null
        nodes := []
        totals := ⟨.num 0, .num 0, .num 0⟩ } :=
  ⟨by decide, c5_missing_runData_graceful _ (by decide)⟩

/-! ## C7: the two trace filters -/

/-- C7: `filterByName` and `filterFailed` each return a new `Trace` with
the same top-level fields and a filtered subsequence of the input's
`nodes` (so the length never grows), and each is idempotent when
reapplied with the same arguments. Both are pure functions of the input
trace, so the input is never mutated. -/
theorem c7_filters_preserve_and_idempotent (t : Trace) (pat : String) :
    ((filterByName t pat).executionId = t.executionId ∧
     (filterByName t pat).workflowId = t.workflowId ∧
     (filterByName t pat).status = t.status ∧
     (filterByName t pat).startedAt = t.startedAt ∧
     (filterByName t pat).stoppedAt = t.stoppedAt ∧
     (filterByName t pat).duration = t.duration) ∧
    (filterByName t pat).nodes.Sublist t.nodes ∧
    (filterByName t pat).nodes.length ≤ t.nodes.length ∧
    filterByName (filterByName t pat) pat = filterByName t pat ∧
    ((filterFailed t).executionId = t.executionId ∧
     (filterFailed t).workflowId = t.workflowId ∧
     (filterFailed t).status = t.status ∧
     (filterFailed t).startedAt = t.startedAt ∧
     (filterFailed t).stoppedAt = t.stoppedAt ∧
     (filterFailed t).duration = t.duration) ∧
    (filterFailed t).nodes.Sublist t.nodes ∧
    (filterFailed t).nodes.length ≤ t.nodes.length ∧
    filterFailed (filterFailed t) = filterFailed t := by
  refine ⟨⟨rfl, rfl, rfl, rfl, rfl, rfl⟩, ?_, ?_, ?_,
          ⟨rfl, rfl, rfl, rfl, rfl, rfl⟩, ?_, ?_, ?_⟩
  · exact List.filter_sublist t.nodes
  · exact List.length_filter_le _ t.nodes
  · simp [filterByName, List.filter_filter]
  · exact List.filter_sublist t.nodes
  · exact List.length_filter_le _ t.nodes
  · simp [filterFailed, List.filter_filter]

/-! ## C10: gating of the OpenAI-style `usage` check -/

/-- C10: an object whose token counts live only in an OpenAI-style
`usage` field is recorded exactly when `usage.prompt_tokens` or
`usage.completion_tokens` is truthy; when both are absent, a positive
`total_tokens` alone contributes nothing — neither a hit, nor a node
entry, nor totals. -/
theorem c10_usage_requires_prompt_or_completion (p c t : Int) :
    (findTokenUsage (.obj [("usage", .obj [("prompt_tokens", .num p),
        ("completion_tokens", .num c), ("total_tokens", .num t)])]) "" =
      if p ≠ 0 ∨ c ≠ 0 then
        [⟨"", .obj [("promptTokens", .num p), ("completionTokens", .num c),
                    ("totalTokens", .num t)], .str "unknown"⟩]
      else []) ∧
    findTokenUsage (.obj [("usage", .obj [("total_tokens", .num t)])]) "" = [] ∧
    extractTokenUsage (.obj [("data", .obj [("resultData", .obj [("runData", .obj
        [("N", .arr [.obj [("usage", .obj [("total_tokens", .num t)])]])])])])]) =
      ⟨.null, .null, .null, .null, .null, [], ⟨.num 0, .num 0, .num 0⟩⟩ := by
  refine ⟨?_, ?_, ?_⟩
  · by_cases hp : p = 0 <;> by_cases hc : c = 0 <;>
      simp [findTokenUsage, ftuFields, checkHits, modelChain3, isObjOrArr, hp, hc]
  · simp [findTokenUsage, ftuFields, checkHits, modelChain3, isObjOrArr]
  · simp [extractTokenUsage, extractEntries, jsEntries, findTokenUsage, ftuFields,
          checkHits, modelChain3, isObjOrArr, dedupNodes, sumTokens]

/-! ## C9: the `llmOutput` shortcut records the same usage twice -/

theorem checkHits_tokenUsage_hit (v : JsonV) (path : String)
    (h : jsTruthy (jsGet v "tokenUsage") = true) :
    1 ≤ ((checkHits v path).filter
          (fun x => x.tokenUsage = jsGet v "tokenUsage")).length := by
  unfold checkHits
  simp only [h, if_true, List.filter_append, List.length_append]
  have : (List.filter (fun x => decide (x.tokenUsage = jsGet v "tokenUsage"))
      [(⟨path, jsGet v "tokenUsage", modelChain3 v⟩ : TokenHit)]).length = 1 := by
    simp
  omega

theorem checkHits_llm_hit (rfs lfs : List (String × JsonV)) (path : String)
    (hget : jsGet (.obj rfs) "llmOutput" = .obj lfs)
    (htu : jsTruthy (jsGet (.obj lfs) "tokenUsage") = true) :
    1 ≤ ((checkHits (.obj rfs) path).filter
          (fun x => x.tokenUsage = jsGet (.obj lfs) "tokenUsage")).length := by
  unfold checkHits
  simp only [hget, htu, if_true, List.filter_append, List.length_append]
  have : (List.filter (fun x => decide (x.tokenUsage = jsGet (.obj lfs) "tokenUsage"))
      [(⟨(if path = "" then "llmOutput" else path ++ ".llmOutput"),
        jsGet (.obj lfs) "tokenUsage",
        jsOr (jsGet (.obj lfs) "model_name")
          (jsOr (jsGet (.obj lfs) "model") (.str "unknown"))⟩ : TokenHit)]).length = 1 := by
    simp
  omega

theorem ftuFields_llm_hit (lfs : List (String × JsonV))
    (htu : jsTruthy (jsGet (.obj lfs) "tokenUsage") = true) :
    ∀ (rfs : List (String × JsonV)) (path : String) (fk : String) (fv : JsonV),
      rfs.find? (fun f => f.1 == "llmOutput") = some (fk, fv) →
      fv = .obj lfs →
      1 ≤ ((ftuFields rfs path).filter
            (fun x => x.tokenUsage = jsGet (.obj lfs) "tokenUsage")).length := by
  intro rfs
  induction rfs with
  | nil => intro path fk fv hf _; simp [List.find?] at hf
  | cons kv rest ih =>
    intro path fk fv hf h2
    obtain ⟨k, v⟩ := kv
    by_cases hk : (k == "llmOutput") = true
    · have hkv : k = fk ∧ v = fv := by
        have h1 : some (k, v) = some (fk, fv) := by
          simpa [List.find?, hk] using hf
        simpa using h1
      have hv : v = .obj lfs := hkv.2.trans h2
      subst hv
      simp only [ftuFields, isObjOrArr, if_true, List.filter_append, List.length_append]
      have hstep : findTokenUsage (.obj lfs) (if path = "" then k else path ++ "." ++ k) =
          checkHits (.obj lfs) (if path = "" then k else path ++ "." ++ k) ++
            ftuFields lfs (if path = "" then k else path ++ "." ++ k) := by
        simp [findTokenUsage]
      rw [hstep]
      have h1 := checkHits_tokenUsage_hit (.obj lfs)
        (if path = "" then k else path ++ "." ++ k) htu
      simp only [List.filter_append, List.length_append]
      omega
    · have hk' : (k == "llmOutput") = false := by simpa using hk
      have hf' : rest.find? (fun f => f.1 == "llmOutput") = some (fk, fv) := by
        simpa [List.find?, hk'] using hf
      have := ih path fk fv hf' h2
      simp only [ftuFields, List.filter_append, List.length_append]
      omega

/-- C9: a run object with an `llmOutput` field whose `tokenUsage` is
truthy is recorded twice — once by the explicit `llmOutput` shortcut on
the parent, once again when the recursion descends into the `llmOutput`
object and its own `tokenUsage` check fires — and on the canonical
LangChain run shape the two identical entries make every token count
enter the totals twice. -/
theorem c9_llmoutput_counted_twice :
    (∀ (rfs lfs : List (String × JsonV)) (path : String),
        jsGet (.obj rfs) "llmOutput" = .obj lfs →
        jsTruthy (jsGet (.obj lfs) "tokenUsage") = true →
        2 ≤ ((findTokenUsage (.obj rfs) path).filter
              (fun x => x.tokenUsage = jsGet (.obj lfs) "tokenUsage")).length) ∧
    (∀ (n : String) (p c t : Int),
        extractEntries (llmRunExec n p c t) = [llmRunUsage n p c t, llmRunUsage n p c t] ∧
        (extractTokenUsage (llmRunExec n p c t)).totals =
          ⟨.num (p + p), .num (c + c), .num (t + t)⟩) := by
  constructor
  · intro rfs lfs path hget htu
    have hfind : ∃ fk fv, rfs.find? (fun f => f.1 == "llmOutput") = some (fk, fv) ∧
        fv = .obj lfs := by
      cases hf : rfs.find? (fun f => f.1 == "llmOutput") with
      | none =>
        have : jsGet (.obj rfs) "llmOutput" = .null := by simp [jsGet, hf]
        rw [this] at hget
        exact absurd hget (by simp)
      | some fp =>
        obtain ⟨fk, fv⟩ := fp
        refine ⟨fk, fv, rfl, ?_⟩
        have : jsGet (.obj rfs) "llmOutput" = fv := by simp [jsGet, hf]
        rw [this] at hget
        exact hget
    obtain ⟨fk, fv, hf, h2⟩ := hfind
    have hc := checkHits_llm_hit rfs lfs path hget htu
    have hr := ftuFields_llm_hit lfs htu rfs path fk fv hf h2
    have : findTokenUsage (.obj rfs) path =
        checkHits (.obj rfs) path ++ ftuFields rfs path := by
      simp [findTokenUsage]
    rw [this]
    simp only [List.filter_append, List.length_append]
    omega
  · intro n p c t
    constructor
    · by_cases hp : p = 0 <;> by_cases hc : c = 0 <;> by_cases ht : t = 0 <;>
        simp [llmRunExec, llmRunUsage, extractEntries, jsEntries, findTokenUsage,
              ftuFields, checkHits, modelChain3, isObjOrArr, hitToUsage, tokField,
              hp, hc, ht]
    · by_cases hp : p = 0 <;> by_cases hc : c = 0 <;> by_cases ht : t = 0 <;>
        simp [llmRunExec, llmRunUsage, extractTokenUsage, extractEntries, jsEntries,
              findTokenUsage, ftuFields, checkHits, modelChain3, isObjOrArr,
              hitToUsage, tokField, sumTokens, hp, hc, ht]

/-- Witness for C9 at a concrete run object. -/
theorem c9_llmoutput_counted_twice_witness :
    jsGet (.obj [("llmOutput", .obj [("tokenUsage", .obj [("promptTokens", .num 7)])])]) "llmOutput" =
      .obj [("tokenUsage", .obj [("promptTokens", .num 7)])] ∧
    jsTruthy (jsGet (JsonV.obj [("tokenUsage", .obj [("promptTokens", .num 7)])]) "tokenUsage") = true ∧
    2 ≤ ((findTokenUsage (.obj [("llmOutput", .obj [("tokenUsage", .obj [("promptTokens", .num 7)])])]) "").filter
          (fun x => x.tokenUsage =
            jsGet (JsonV.obj [("tokenUsage", .obj [("promptTokens", .num 7)])]) "tokenUsage")).length :=
  ⟨by decide, by decide,
    c9_llmoutput_counted_twice.1 _ _ "" (by decide) (by decide)⟩

/-! ## Lemmas on first-occurrence deduplication (`Map`/`Set` key order) -/

theorem mem_dedupFirstAux :
    ∀ (l seen : List String) (x : String),
      x ∈ dedupFirstAux seen l ↔ (x ∈ l ∧ x ∉ seen) := by
  intro l
  induction l with
  | nil => intro seen x; simp [dedupFirstAux]
  | cons y ys ih =>
    intro seen x
    by_cases hy : y ∈ seen
    · rw [dedupFirstAux, if_pos hy, ih]
      constructor
      · rintro ⟨hm, hn⟩; exact ⟨List.mem_cons_of_mem _ hm, hn⟩
      · rintro ⟨hor, hn⟩
        rcases List.mem_cons.mp hor with rfl | hm
        · exact absurd hy hn
        · exact ⟨hm, hn⟩
    · rw [dedupFirstAux, if_neg hy]
      constructor
      · intro hmem
        rcases List.mem_cons.mp hmem with rfl | hm
        · exact ⟨List.mem_cons_self _ _, hy⟩
        · obtain ⟨hys, hns⟩ := (ih _ _).mp hm
          refine ⟨List.mem_cons_of_mem _ hys, fun hc => hns ?_⟩
          exact List.mem_cons_of_mem _ hc
      · rintro ⟨hor, hn⟩
        rcases List.mem_cons.mp hor with rfl | hm
        · exact List.mem_cons_self _ _
        · by_cases hxy : x = y
          · exact hxy ▸ List.mem_cons_self _ _
          · refine List.mem_cons_of_mem _ ((ih _ _).mpr ⟨hm, ?_⟩)
            intro hc
            rcases List.mem_cons.mp hc with h | h
            · exact hxy h
            · exact hn h

theorem nodup_dedupFirstAux :
    ∀ (l seen : List String), (dedupFirstAux seen l).Nodup := by
  intro l
  induction l with
  | nil => intro seen; simp [dedupFirstAux]
  | cons y ys ih =>
    intro seen
    by_cases hy : y ∈ seen
    · rw [dedupFirstAux, if_pos hy]; exact ih seen
    · rw [dedupFirstAux, if_neg hy]
      refine List.nodup_cons.mpr ⟨?_, ih _⟩
      intro hc
      have := (mem_dedupFirstAux _ _ _).mp hc
      exact this.2 (List.mem_cons_self _ _)

theorem dedupFirstAux_congr :
    ∀ (l s1 s2 : List String), (∀ x, x ∈ s1 ↔ x ∈ s2) →
      dedupFirstAux s1 l = dedupFirstAux s2 l := by
  intro l
  induction l with
  | nil => intros; rfl
  | cons y ys ih =>
    intro s1 s2 h
    by_cases hy : y ∈ s1
    · rw [dedupFirstAux, if_pos hy, dedupFirstAux, if_pos ((h y).mp hy)]
      exact ih s1 s2 h
    · rw [dedupFirstAux, if_neg hy, dedupFirstAux, if_neg (fun hc => hy ((h y).mpr hc))]
      congr 1
      apply ih
      intro x
      simp only [List.mem_cons]
      exact or_congr Iff.rfl (h x)

theorem dedupFirstAux_append :
    ∀ (l1 seen l2 : List String),
      dedupFirstAux seen (l1 ++ l2) =
        dedupFirstAux seen l1 ++ dedupFirstAux (dedupFirstAux seen l1 ++ seen) l2 := by
  intro l1
  induction l1 with
  | nil => intro seen l2; simp [dedupFirstAux]
  | cons y ys ih =>
    intro seen l2
    by_cases hy : y ∈ seen
    · simp only [List.cons_append, dedupFirstAux, if_pos hy]
      exact ih seen l2
    · simp only [List.cons_append, dedupFirstAux, if_neg hy]
      rw [show List.append ys l2 = ys ++ l2 from rfl, ih (y :: seen) l2]
      try simp only [List.cons_append]
      congr 1
      try congr 1
      apply dedupFirstAux_congr
      intro x
      simp only [List.mem_append, List.mem_cons]
      constructor
      · rintro (h | rfl | h)
        · exact Or.inr (Or.inl h)
        · exact Or.inl rfl
        · exact Or.inr (Or.inr h)
      · rintro (rfl | h | h)
        · exact Or.inr (Or.inl rfl)
        · exact Or.inl h
        · exact Or.inr (Or.inr h)

theorem dedupFirstAux_of_nodup :
    ∀ (l : List String), l.Nodup →
      ∀ seen, dedupFirstAux seen l = l.filter (fun x => decide (x ∉ seen)) := by
  intro l
  induction l with
  | nil => intro _ seen; rfl
  | cons y ys ih =>
    intro hnd seen
    obtain ⟨hy, hnd'⟩ := List.nodup_cons.mp hnd
    by_cases hys : y ∈ seen
    · rw [dedupFirstAux, if_pos hys, List.filter_cons, ih hnd' seen]
      simp [hys]
    · rw [dedupFirstAux, if_neg hys, List.filter_cons, ih hnd' (y :: seen)]
      have hyk : (decide (y ∉ seen)) = true := by simpa using hys
      rw [hyk, if_pos rfl]
      congr 1
      apply List.filter_congr
      intro x hx
      have hxy : x ≠ y := fun hc => hy (hc ▸ hx)
      simp [List.mem_cons, hxy]

theorem nodup_allNodeNames (a b : List WNode) : (allNodeNames a b).Nodup :=
  nodup_dedupFirstAux _ _

theorem mem_allNodeNames (a b : List WNode) (x : String) :
    x ∈ allNodeNames a b ↔
      (x ∈ a.map (fun n => n.name) ∨ x ∈ b.map (fun n => n.name)) := by
  unfold allNodeNames mapKeys dedupFirst
  rw [mem_dedupFirstAux]
  simp only [List.mem_append, List.not_mem_nil, not_false_eq_true, and_true]
  rw [mem_dedupFirstAux, mem_dedupFirstAux]
  simp

/-! ## Lemmas on the diff classification loop -/

theorem diffGo_eq_filter (a b : List WNode) (U : List String) :
    diffGo a b U =
      ⟨U.filter (fun x => classifyName a b x = Bucket.added),
       U.filter (fun x => classifyName a b x = Bucket.removed),
       U.filter (fun x => classifyName a b x = Bucket.modified),
       U.filter (fun x => classifyName a b x = Bucket.unchanged)⟩ := by
  induction U with
  | nil => rfl
  | cons x xs ih =>
    simp only [diffGo, ih]
    cases hcl : classifyName a b x <;> simp [List.filter_cons, hcl]

theorem length_four_filters (f : String → Bucket) (U : List String) :
    (U.filter (fun x => f x = Bucket.added)).length +
      (U.filter (fun x => f x = Bucket.removed)).length +
      (U.filter (fun x => f x = Bucket.modified)).length +
      (U.filter (fun x => f x = Bucket.unchanged)).length = U.length := by
  induction U with
  | nil => rfl
  | cons y ys ih =>
    cases h : f y <;> simp [List.filter_cons, h] <;> omega

theorem count_filter_decide (p : String → Bool) (U : List String) (x : String) :
    (U.filter p).count x = if p x = true then U.count x else 0 := by
  induction U with
  | nil => simp
  | cons y ys ih =>
    by_cases hx : x = y
    · subst hx
      cases hp : p x
      · simp [List.filter_cons, hp, ih]
      · simp [List.filter_cons, hp, List.count_cons, ih]
    · cases hp : p y
      · simp [List.filter_cons, hp, List.count_cons, hx, ih]
      · simp [List.filter_cons, hp, List.count_cons, hx, ih]

theorem count_four_filters (f : String → Bucket) (U : List String) (x : String) :
    (U.filter (fun y => f y = Bucket.added)).count x +
      (U.filter (fun y => f y = Bucket.removed)).count x +
      (U.filter (fun y => f y = Bucket.modified)).count x +
      (U.filter (fun y => f y = Bucket.unchanged)).count x = U.count x := by
  cases h : f x <;> simp [count_filter_decide, h]

/-! ## C1: the four buckets partition the name union -/

/-- C1: for every pair of workflow node lists, the four diff buckets
partition the union of node names: the bucket lengths sum to the size of
the (deduplicated, insertion-ordered) name union, every name of the
union occurs exactly once across the four lists, and no other name
occurs at all. -/
theorem c1_diff_partitions_name_union (a b : List WNode) :
    ((diffWorkflows a b).added.length + (diffWorkflows a b).removed.length +
      (diffWorkflows a b).modified.length + (diffWorkflows a b).unchanged.length =
      (allNodeNames a b).length) ∧
    (∀ x, x ∈ allNodeNames a b →
      (diffWorkflows a b).added.count x + (diffWorkflows a b).removed.count x +
        (diffWorkflows a b).modified.count x + (diffWorkflows a b).unchanged.count x = 1) ∧
    (∀ x, x ∉ allNodeNames a b →
      (diffWorkflows a b).added.count x + (diffWorkflows a b).removed.count x +
        (diffWorkflows a b).modified.count x + (diffWorkflows a b).unchanged.count x = 0) := by
  unfold diffWorkflows
  rw [diffGo_eq_filter]
  refine ⟨length_four_filters _ _, ?_, ?_⟩
  · intro x hx
    rw [count_four_filters]
    exact List.count_eq_one_of_mem (nodup_allNodeNames a b) hx
  · intro x hx
    rw [count_four_filters]
    exact List.count_eq_zero_of_not_mem hx

/-- Witness for C1's per-name parts on a concrete pair of graphs. -/
theorem c1_diff_partitions_name_union_witness :
    ("X" ∈ allNodeNames
        [⟨"1", "X", "t", .null, .null, .obj [], .null, .null⟩]
        [⟨"2", "Z", "t", .null, .null, .obj [], .null, .null⟩]) ∧
    ((diffWorkflows
        [⟨"1", "X", "t", .null, .null, .obj [], .null, .null⟩]
        [⟨"2", "Z", "t", .null, .null, .obj [], .null, .null⟩]).added.count "X" +
      (diffWorkflows
        [⟨"1", "X", "t", .null, .null, .obj [], .null, .null⟩]
        [⟨"2", "Z", "t", .null, .null, .obj [], .null, .null⟩]).removed.count "X" +
      (diffWorkflows
        [⟨"1", "X", "t", .null, .null, .obj [], .null, .null⟩]
        [⟨"2", "Z", "t", .null, .null, .obj [], .null, .null⟩]).modified.count "X" +
      (diffWorkflows
        [⟨"1", "X", "t", .null, .null, .obj [], .null, .null⟩]
        [⟨"2", "Z", "t", .null, .null, .obj [], .null, .null⟩]).unchanged.count "X" = 1) :=
  ⟨by decide,
    (c1_diff_partitions_name_union _ _).2.1 "X" (by decide)⟩

/-! ## C2: only `parameters` drives the modified/unchanged decision -/

theorem mem_names_of_lastByName {ns : List WNode} {x : String} {n : WNode}
    (h : lastByName ns x = some n) : x ∈ ns.map (fun m => m.name) := by
  unfold lastByName at h
  rcases hf : ns.filter (fun m => decide (m.name = x)) with _ | ⟨m, ms⟩
  · rw [hf] at h; simp at h
  · have hm : m ∈ ns.filter (fun m => decide (m.name = x)) := by
      rw [hf]; exact List.mem_cons_self _ _
    have hname : m.name = x := by simpa using List.of_mem_filter hm
    exact List.mem_map.mpr ⟨m, List.mem_of_mem_filter hm, hname⟩

/-- C2: for a name present in both graphs, the diff classifies it as
modified exactly when the order-sensitive JSON serializations of the two
nodes' `parameters` differ; equal `parameters` leave it unchanged no
matter how `position`, `typeVersion`, `credentials` or any other node
field differ (the nodes `n1`, `n2` are entirely arbitrary apart from
their `parameters`). -/
theorem c2_modified_iff_parameters_differ (a b : List WNode) (x : String) (n1 n2 : WNode)
    (h1 : lastByName a x = some n1) (h2 : lastByName b x = some n2) :
    (x ∈ (diffWorkflows a b).modified ↔ jsonStr n1.parameters ≠ jsonStr n2.parameters) ∧
    (n1.parameters = n2.parameters → x ∈ (diffWorkflows a b).unchanged) := by
  have hxa : x ∈ a.map (fun n => n.name) := mem_names_of_lastByName h1
  have hxu : x ∈ allNodeNames a b := (mem_allNodeNames a b x).mpr (Or.inl hxa)
  have hcl : classifyName a b x =
      if jsonStr n1.parameters ≠ jsonStr n2.parameters then .modified else .unchanged := by
    unfold classifyName
    rw [h1, h2]
  unfold diffWorkflows
  rw [diffGo_eq_filter]
  constructor
  · simp only [List.mem_filter]
    by_cases hne : jsonStr n1.parameters ≠ jsonStr n2.parameters
    · simp [hxu, hcl, hne]
    · simp [hxu, hcl, hne]
  · intro hpe
    have hs : jsonStr n1.parameters = jsonStr n2.parameters := by rw [hpe]
    simp only [List.mem_filter]
    exact ⟨hxu, by simp [hcl, hs]⟩

/-- Witness for C2: node `"S"` present in both graphs with different
`parameters` and different `position`. -/
theorem c2_modified_iff_parameters_differ_witness :
    lastByName [(⟨"1", "S", "t", .null, .arr [.num 0, .num 0], .obj [("v", .num 1)], .null, .null⟩ : WNode)] "S" =
      some ⟨"1", "S", "t", .null, .arr [.num 0, .num 0], .obj [("v", .num 1)], .null, .null⟩ ∧
    lastByName [(⟨"2", "S", "t", .null, .arr [.num 5, .num 5], .obj [("v", .num 2)], .null, .null⟩ : WNode)] "S" =
      some ⟨"2", "S", "t", .null, .arr [.num 5, .num 5], .obj [("v", .num 2)], .null, .null⟩ ∧
    (("S" ∈ (diffWorkflows
        [(⟨"1", "S", "t", .null, .arr [.num 0, .num 0], .obj [("v", .num 1)], .null, .null⟩ : WNode)]
        [(⟨"2", "S", "t", .null, .arr [.num 5, .num 5], .obj [("v", .num 2)], .null, .null⟩ : WNode)]).modified ↔
      jsonStr (JsonV.obj [("v", .num 1)]) ≠ jsonStr (JsonV.obj [("v", .num 2)])) ∧
     ((JsonV.obj [("v", .num 1)]) = (JsonV.obj [("v", .num 2)]) → "S" ∈ (diffWorkflows
        [(⟨"1", "S", "t", .null, .arr [.num 0, .num 0], .obj [("v", .num 1)], .null, .null⟩ : WNode)]
        [(⟨"2", "S", "t", .null, .arr [.num 5, .num 5], .obj [("v", .num 2)], .null, .null⟩ : WNode)]).unchanged)) :=
  ⟨by decide, by decide,
    c2_modified_iff_parameters_differ
      [(⟨"1", "S", "t", .null, .arr [.num 0, .num 0], .obj [("v", .num 1)], .null, .null⟩ : WNode)]
      [(⟨"2", "S", "t", .null, .arr [.num 5, .num 5], .obj [("v", .num 2)], .null, .null⟩ : WNode)]
      "S"
      ⟨"1", "S", "t", .null, .arr [.num 0, .num 0], .obj [("v", .num 1)], .null, .null⟩
      ⟨"2", "S", "t", .null, .arr [.num 5, .num 5], .obj [("v", .num 2)], .null, .null⟩
      (by decide) (by decide)⟩

/-! ## C6: deterministic insertion-ordered iteration of the name union -/

/-- C6: under the data-model invariant that node names are unique within
one graph (spec §3), the union the diff iterates is exactly all of `a`'s
names in their original order followed by the names of `b` not already
seen, in `b`'s order — and each of the four result lists is an in-order
sublist of that union, so contents and order of the result are a
deterministic function of the two inputs (the embedding is a pure
function). -/
theorem c6_union_iteration_order (a b : List WNode)
    (ha : (a.map (fun n => n.name)).Nodup) (hb : (b.map (fun n => n.name)).Nodup) :
    allNodeNames a b =
      a.map (fun n => n.name) ++
        (b.map (fun n => n.name)).filter (fun x => decide (x ∉ a.map (fun n => n.name))) ∧
    (diffWorkflows a b).added.Sublist (allNodeNames a b) ∧
    (diffWorkflows a b).removed.Sublist (allNodeNames a b) ∧
    (diffWorkflows a b).modified.Sublist (allNodeNames a b) ∧
    (diffWorkflows a b).unchanged.Sublist (allNodeNames a b) := by
  have hka : mapKeys a = a.map (fun n => n.name) := by
    unfold mapKeys dedupFirst
    rw [dedupFirstAux_of_nodup _ ha]
    simp
  have hkb : mapKeys b = b.map (fun n => n.name) := by
    unfold mapKeys dedupFirst
    rw [dedupFirstAux_of_nodup _ hb]
    simp
  constructor
  · unfold allNodeNames dedupFirst
    rw [hka, hkb, dedupFirstAux_append]
    have hA : dedupFirstAux [] (a.map (fun n => n.name)) = a.map (fun n => n.name) := by
      rw [dedupFirstAux_of_nodup _ ha]
      simp
    rw [hA, List.append_nil, dedupFirstAux_of_nodup _ hb]
  · unfold diffWorkflows
    rw [diffGo_eq_filter]
    exact ⟨List.filter_sublist _, List.filter_sublist _,
           List.filter_sublist _, List.filter_sublist _⟩

/-- Witness for C6 on concrete graphs with overlapping names. -/
theorem c6_union_iteration_order_witness :
    ([(⟨"1", "X", "t", .null, .null, .obj [], .null, .null⟩ : WNode),
      ⟨"2", "Y", "t", .null, .null, .obj [], .null, .null⟩].map (fun n => n.name)).Nodup ∧
    allNodeNames
        [(⟨"1", "X", "t", .null, .null, .obj [], .null, .null⟩ : WNode),
         ⟨"2", "Y", "t", .null, .null, .obj [], .null, .null⟩]
        [(⟨"3", "Y", "t", .null, .null, .obj [], .null, .null⟩ : WNode),
         ⟨"4", "Z", "t", .null, .null, .obj [], .null, .null⟩] =
      ["X", "Y"] ++ (["Y", "Z"].filter (fun x => decide (x ∉ ["X", "Y"]))) :=
  ⟨by decide,
    ((c6_union_iteration_order _ _ (by decide) (by decide)).1)⟩

/-! ## Lemmas on the string-keyed deduplication map -/

theorem usageKey_addTokens (r e : NodeUsage) : usageKey (addTokens r e) = usageKey r := rfl

theorem addTokens_nodeName (r e : NodeUsage) : (addTokens r e).nodeName = r.nodeName := rfl

theorem addTokens_model (r e : NodeUsage) : (addTokens r e).model = r.model := rfl

theorem toIntJ_num (n : Int) : toIntJ (.num n) = n := rfl

theorem eq_num_of_isNumJ {v : JsonV} (h : isNumJ v = true) : v = .num (toIntJ v) := by
  cases v <;> simp_all [isNumJ, toIntJ]

theorem jsAdd_toIntJ {a b : JsonV} (ha : isNumJ a = true) (hb : isNumJ b = true) :
    jsAdd a b = .num (toIntJ a + toIntJ b) := by
  cases a <;> cases b <;> simp_all [isNumJ, jsAdd, toIntJ]

theorem isNumJ_jsAdd {a b : JsonV} (ha : isNumJ a = true) (hb : isNumJ b = true) :
    isNumJ (jsAdd a b) = true := by
  cases a <;> cases b <;> simp_all [isNumJ, jsAdd]

theorem findByKey_nil (k : String) : findByKey [] k = none := rfl

theorem findByKey_cons (r : NodeUsage) (rs : List NodeUsage) (k : String) :
    findByKey (r :: rs) k = if usageKey r = k then some r else findByKey rs k := by
  by_cases h : usageKey r = k <;> simp [findByKey, List.find?, h]

theorem findByKey_insertEntry (l : List NodeUsage) (e : NodeUsage) (k : String) :
    findByKey (insertEntry l e) k =
      if k = usageKey e then
        match findByKey l k with
        | some r => some (addTokens r e)
        | none => some e
      else findByKey l k := by
  induction l with
  | nil =>
    by_cases hk : k = usageKey e
    · rw [insertEntry, findByKey_cons, if_pos hk.symm, if_pos hk, findByKey_nil]
    · rw [insertEntry, findByKey_cons, if_neg (fun hc => hk hc.symm), if_neg hk]
  | cons r rs ih =>
    by_cases hre : usageKey r = usageKey e
    · rw [insertEntry, if_pos hre]
      by_cases hk : k = usageKey e
      · have hrk : usageKey r = k := hre.trans hk.symm
        rw [findByKey_cons, usageKey_addTokens, if_pos hrk, if_pos hk,
            findByKey_cons, if_pos hrk]
      · have hrk : ¬ (usageKey r = k) := fun hc => hk (hc.symm.trans hre)
        rw [findByKey_cons, usageKey_addTokens, if_neg hrk, if_neg hk,
            findByKey_cons, if_neg hrk]
    · rw [insertEntry, if_neg hre]
      by_cases hrk : usageKey r = k
      · have hk : ¬ (k = usageKey e) := fun hc => hre (hrk.trans hc)
        rw [findByKey_cons, if_pos hrk, if_neg hk, findByKey_cons, if_pos hrk]
      · rw [findByKey_cons, if_neg hrk, ih]
        by_cases hk : k = usageKey e
        · rw [if_pos hk, if_pos hk, findByKey_cons, if_neg hrk]
        · rw [if_neg hk, if_neg hk, findByKey_cons, if_neg hrk]

theorem findByKey_foldl_insertEntry :
    ∀ (l acc : List NodeUsage) (k : String),
      findByKey (l.foldl insertEntry acc) k =
        match findByKey acc k with
        | some r => some ((l.filter (fun e => usageKey e = k)).foldl addTokens r)
        | none =>
          match l.filter (fun e => usageKey e = k) with
          | [] => none
          | e :: cls => some (cls.foldl addTokens e) := by
  intro l
  induction l with
  | nil =>
    intro acc k
    cases h : findByKey acc k <;> simp [h]
  | cons e l ih =>
    intro acc k
    rw [List.foldl_cons, ih]
    by_cases hk : usageKey e = k
    · rw [findByKey_insertEntry, if_pos hk.symm]
      cases hacc : findByKey acc k with
      | some r => simp [List.filter_cons, hk]
      | none => simp [List.filter_cons, hk]
    · rw [findByKey_insertEntry, if_neg (fun hc => hk hc.symm)]
      simp [List.filter_cons, hk]

theorem keys_insertEntry (l : List NodeUsage) (e : NodeUsage) :
    (insertEntry l e).map usageKey =
      if usageKey e ∈ l.map usageKey then l.map usageKey
      else l.map usageKey ++ [usageKey e] := by
  induction l with
  | nil => simp [insertEntry]
  | cons r rs ih =>
    by_cases hre : usageKey r = usageKey e
    · rw [insertEntry, if_pos hre]
      simp [usageKey_addTokens, hre]
    · rw [insertEntry, if_neg hre]
      simp only [List.map_cons, ih]
      by_cases hm : usageKey e ∈ rs.map usageKey
      · simp [hm, hre]
      · have hner : ¬ (usageKey e = usageKey r) := fun hc => hre hc.symm
        have : ¬ (usageKey e ∈ usageKey r :: rs.map usageKey) := by
          simp [hm, hner]
        simp [hm, this]

theorem keysNodup_foldl :
    ∀ (l acc : List NodeUsage), (acc.map usageKey).Nodup →
      ((l.foldl insertEntry acc).map usageKey).Nodup := by
  intro l
  induction l with
  | nil => intro acc h; exact h
  | cons e l ih =>
    intro acc h
    rw [List.foldl_cons]
    apply ih
    rw [keys_insertEntry]
    by_cases hm : usageKey e ∈ acc.map usageKey
    · simp [hm, h]
    · simp [hm, h, List.nodup_append]

theorem mem_of_findByKey {l : List NodeUsage} {k : String} {r : NodeUsage}
    (h : findByKey l k = some r) : r ∈ l ∧ usageKey r = k := by
  unfold findByKey at h
  exact ⟨List.mem_of_find?_eq_some h, by simpa using List.find?_some h⟩

theorem findByKey_of_mem_nodup :
    ∀ (l : List NodeUsage), ((l.map usageKey).Nodup) →
      ∀ {r : NodeUsage}, r ∈ l → findByKey l (usageKey r) = some r := by
  intro l
  induction l with
  | nil => intro _ r hm; cases hm
  | cons s ss ih =>
    intro h r hm
    have h' : usageKey s ∉ ss.map usageKey ∧ (ss.map usageKey).Nodup := by
      simpa using h
    rcases List.mem_cons.mp hm with rfl | hm'
    · rw [findByKey_cons, if_pos rfl]
    · have hne : usageKey s ≠ usageKey r := by
        intro hc
        exact h'.1 (hc ▸ List.mem_map_of_mem usageKey hm')
      rw [findByKey_cons, if_neg hne]
      exact ih h'.2 hm'

theorem dedupNodes_char (entries : List NodeUsage) (k : String) :
    findByKey (dedupNodes entries) k =
      match entries.filter (fun e => usageKey e = k) with
      | [] => none
      | e :: cls => some (cls.foldl addTokens e) := by
  unfold dedupNodes
  rw [findByKey_foldl_insertEntry]
  rfl

theorem dedupNodes_keys_nodup (entries : List NodeUsage) :
    ((dedupNodes entries).map usageKey).Nodup :=
  keysNodup_foldl entries [] (by simp)

theorem foldl_addTokens_name :
    ∀ (cls : List NodeUsage) (e : NodeUsage),
      (cls.foldl addTokens e).nodeName = e.nodeName ∧
      (cls.foldl addTokens e).model = e.model := by
  intro cls
  induction cls with
  | nil => intro e; exact ⟨rfl, rfl⟩
  | cons c cs ih =>
    intro e
    rw [List.foldl_cons]
    exact ih (addTokens e c)

theorem foldl_addTokens_tok (g : NodeUsage → JsonV)
    (hg : ∀ r e, g (addTokens r e) = jsAdd (g r) (g e)) :
    ∀ (cls : List NodeUsage) (e : NodeUsage),
      (∀ r ∈ cls, isNumJ (g r) = true) → isNumJ (g e) = true →
      g (cls.foldl addTokens e) =
        .num (toIntJ (g e) + (cls.map (fun r => toIntJ (g r))).sum) := by
  intro cls
  induction cls with
  | nil =>
    intro e _ he
    simpa using eq_num_of_isNumJ he
  | cons c cs ih =>
    intro e hcls he
    have hc : isNumJ (g c) = true := hcls c (List.mem_cons_self _ _)
    have hnum : isNumJ (g (addTokens e c)) = true := by
      rw [hg]; exact isNumJ_jsAdd he hc
    rw [List.foldl_cons, ih (addTokens e c) (fun r hr => hcls r (List.mem_cons_of_mem _ hr)) hnum]
    rw [hg, jsAdd_toIntJ he hc]
    simp [toIntJ]
    ring

/-! ## Sum preservation through the deduplication pass -/

theorem entryNumeric_fields {e : NodeUsage} (h : entryNumeric e = true) :
    isNumJ e.promptTokens = true ∧ isNumJ e.completionTokens = true ∧
    isNumJ e.totalTokens = true := by
  unfold entryNumeric at h
  simp only [Bool.and_eq_true] at h
  exact ⟨h.1.1, h.1.2, h.2⟩

theorem sum_insertEntry (g : NodeUsage → JsonV)
    (hg : ∀ r e, g (addTokens r e) = jsAdd (g r) (g e)) (e : NodeUsage)
    (he : isNumJ (g e) = true) :
    ∀ (l : List NodeUsage), (∀ r ∈ l, isNumJ (g r) = true) →
      ((insertEntry l e).map (fun r => toIntJ (g r))).sum =
        (l.map (fun r => toIntJ (g r))).sum + toIntJ (g e) ∧
      (∀ r ∈ insertEntry l e, isNumJ (g r) = true) := by
  intro l
  induction l with
  | nil =>
    intro _
    refine ⟨by simp [insertEntry], ?_⟩
    intro r hr
    have : r = e := by simpa [insertEntry] using hr
    subst this
    exact he
  | cons s ss ih =>
    intro hl
    have hs : isNumJ (g s) = true := hl s (List.mem_cons_self _ _)
    have hss : ∀ r ∈ ss, isNumJ (g r) = true := fun r hr => hl r (List.mem_cons_of_mem _ hr)
    by_cases hse : usageKey s = usageKey e
    · rw [insertEntry, if_pos hse]
      constructor
      · simp only [List.map_cons, List.sum_cons, hg, jsAdd_toIntJ hs he, toIntJ_num]
        ring
      · intro r hr
        rcases List.mem_cons.mp hr with rfl | hr
        · rw [hg]; exact isNumJ_jsAdd hs he
        · exact hss r hr
    · rw [insertEntry, if_neg hse]
      obtain ⟨ih1, ih2⟩ := ih hss
      constructor
      · simp only [List.map_cons, List.sum_cons, ih1]; ring
      · intro r hr
        rcases List.mem_cons.mp hr with rfl | hr
        · exact hs
        · exact ih2 r hr

theorem sum_foldl_insertEntry (g : NodeUsage → JsonV)
    (hg : ∀ r e, g (addTokens r e) = jsAdd (g r) (g e)) :
    ∀ (l acc : List NodeUsage),
      (∀ r ∈ acc, isNumJ (g r) = true) → (∀ r ∈ l, isNumJ (g r) = true) →
      ((l.foldl insertEntry acc).map (fun r => toIntJ (g r))).sum =
        (acc.map (fun r => toIntJ (g r))).sum + (l.map (fun r => toIntJ (g r))).sum ∧
      (∀ r ∈ l.foldl insertEntry acc, isNumJ (g r) = true) := by
  intro l
  induction l with
  | nil => intro acc hacc _; exact ⟨by simp, hacc⟩
  | cons e l ih =>
    intro acc hacc hl
    have he : isNumJ (g e) = true := hl e (List.mem_cons_self _ _)
    have hl' : ∀ r ∈ l, isNumJ (g r) = true := fun r hr => hl r (List.mem_cons_of_mem _ hr)
    obtain ⟨s1, m1⟩ := sum_insertEntry g hg e he acc hacc
    obtain ⟨s2, m2⟩ := ih (insertEntry acc e) m1 hl'
    rw [List.foldl_cons]
    refine ⟨?_, m2⟩
    rw [s2, s1]
    simp only [List.map_cons, List.sum_cons]
    ring

theorem dedupNodes_sum (g : NodeUsage → JsonV)
    (hg : ∀ r e, g (addTokens r e) = jsAdd (g r) (g e))
    (entries : List NodeUsage) (h : ∀ r ∈ entries, isNumJ (g r) = true) :
    ((dedupNodes entries).map (fun r => toIntJ (g r))).sum =
      (entries.map (fun r => toIntJ (g r))).sum := by
  unfold dedupNodes
  obtain ⟨s, _⟩ := sum_foldl_insertEntry g hg entries [] (by simp) h
  simpa using s

theorem foldl_jsAdd_num (f : NodeUsage → JsonV) :
    ∀ (entries : List NodeUsage) (n : Int), (∀ e ∈ entries, isNumJ (f e) = true) →
      entries.foldl (fun acc e => jsAdd acc (f e)) (.num n) =
        .num (n + (entries.map (fun e => toIntJ (f e))).sum) := by
  intro entries
  induction entries with
  | nil => intro n _; simp
  | cons e l ih =>
    intro n h
    have he := h e (List.mem_cons_self _ _)
    rw [List.foldl_cons, jsAdd_toIntJ (show isNumJ (.num n) = true from rfl) he,
        ih _ (fun x hx => h x (List.mem_cons_of_mem _ hx))]
    simp only [toIntJ_num, List.map_cons, List.sum_cons, JsonV.num.injEq]
    ring

/-! ## C4: the deduplication key is the string `nodeName + "-" + model` -/

/-- Counterexample to C4 as stated: in `collideExec` the two extracted
entries carry the DISTINCT composite pairs `("a-b", "c")` and
`("a", "b-c")`, yet the string key conflates them, so they are merged
into one entry and the pair `("a", "b-c")` vanishes from the final list —
under a dedup genuinely keyed by the `(nodeName, model)` pair both pairs
would survive as separate entries with their own sums. -/
theorem c4_counterexample_string_key_collision :
    ((extractEntries collideExec).map (fun e => (e.nodeName, jsString e.model))) =
      [("a-b", "c"), ("a", "b-c")] ∧
    (extractTokenUsage collideExec).nodes =
      [⟨"a-b", .str "c", .num 30, .num 3, .num 33⟩] ∧
    ¬ ∃ r ∈ (extractTokenUsage collideExec).nodes,
        r.nodeName = "a" ∧ r.model = .str "b-c" := by
  decide

/-- C4 (amended): the deduplication is keyed by the STRING
`` `${nodeName}-${model}` ``, with accumulate-on-collision. No two final
entries share that string key (hence none share the `(nodeName, model)`
pair); every extracted entry's key is represented; each final entry is
the accumulated merge of the key-class of extracted entries in order,
keeping the first entry's `nodeName` and `model`; and when all token
fields are numbers each final entry's fields are the sums over its
string-key class — which coincides with the `(nodeName, model)` class
except when distinct pairs concatenate to the same string. -/
theorem c4_amended_dedup_by_string_key (execution : JsonV) :
    ((extractTokenUsage execution).nodes.Pairwise
      (fun r1 r2 => usageKey r1 ≠ usageKey r2)) ∧
    ((extractTokenUsage execution).nodes.Pairwise
      (fun r1 r2 => ¬(r1.nodeName = r2.nodeName ∧ r1.model = r2.model))) ∧
    (∀ e ∈ extractEntries execution, ∃ r ∈ (extractTokenUsage execution).nodes,
        usageKey r = usageKey e) ∧
    (∀ r ∈ (extractTokenUsage execution).nodes,
      ∃ e cls,
        (extractEntries execution).filter (fun x => usageKey x = usageKey r) = e :: cls ∧
        r = cls.foldl addTokens e ∧
        r.nodeName = e.nodeName ∧ r.model = e.model) ∧
    ((extractEntries execution).all entryNumeric = true →
      ∀ r ∈ (extractTokenUsage execution).nodes,
        r.promptTokens = .num ((((extractEntries execution).filter
            (fun x => usageKey x = usageKey r)).map (fun e => toIntJ e.promptTokens)).sum) ∧
        r.completionTokens = .num ((((extractEntries execution).filter
            (fun x => usageKey x = usageKey r)).map (fun e => toIntJ e.completionTokens)).sum) ∧
        r.totalTokens = .num ((((extractEntries execution).filter
            (fun x => usageKey x = usageKey r)).map (fun e => toIntJ e.totalTokens)).sum)) := by
  have hnodes : (extractTokenUsage execution).nodes = dedupNodes (extractEntries execution) := rfl
  have hkeys : ((dedupNodes (extractEntries execution)).map usageKey).Nodup :=
    dedupNodes_keys_nodup _
  have hpw : (dedupNodes (extractEntries execution)).Pairwise
      (fun r1 r2 => usageKey r1 ≠ usageKey r2) := by
    have := hkeys
    rw [List.Nodup, List.pairwise_map] at this
    exact this
  have hchar : ∀ r ∈ dedupNodes (extractEntries execution),
      ∃ e cls,
        (extractEntries execution).filter (fun x => usageKey x = usageKey r) = e :: cls ∧
        r = cls.foldl addTokens e := by
    intro r hr
    have hfk := findByKey_of_mem_nodup _ hkeys hr
    rw [dedupNodes_char] at hfk
    rcases hf : (extractEntries execution).filter (fun x => usageKey x = usageKey r) with
      _ | ⟨e, cls⟩
    · rw [hf] at hfk; simp at hfk
    · rw [hf] at hfk
      simp only [Option.some.injEq] at hfk
      exact ⟨e, cls, rfl, hfk.symm⟩
  refine ⟨?_, ?_, ?_, ?_, ?_⟩
  · rw [hnodes]; exact hpw
  · rw [hnodes]
    refine hpw.imp ?_
    intro r1 r2 hne hpair
    apply hne
    unfold usageKey
    rw [hpair.1, hpair.2]
  · intro e he
    have hmemf : e ∈ (extractEntries execution).filter (fun x => usageKey x = usageKey e) :=
      List.mem_filter.mpr ⟨he, by simp⟩
    rcases hf : (extractEntries execution).filter (fun x => usageKey x = usageKey e) with
      _ | ⟨e0, cls⟩
    · rw [hf] at hmemf; cases hmemf
    · have hc := dedupNodes_char (extractEntries execution) (usageKey e)
      rw [hf] at hc
      obtain ⟨hmem, hkey⟩ := mem_of_findByKey hc
      exact ⟨_, by rw [hnodes]; exact hmem, hkey⟩
  · intro r hr
    rw [hnodes] at hr
    obtain ⟨e, cls, hf, req⟩ := hchar r hr
    refine ⟨e, cls, hf, req, ?_, ?_⟩
    · rw [req]; exact (foldl_addTokens_name cls e).1
    · rw [req]; exact (foldl_addTokens_name cls e).2
  · intro hall r hr
    rw [hnodes] at hr
    have hnum : ∀ x ∈ extractEntries execution, entryNumeric x = true :=
      List.all_eq_true.mp hall
    obtain ⟨e, cls, hf, req⟩ := hchar r hr
    have hmemcls : ∀ x ∈ e :: cls, x ∈ extractEntries execution := by
      intro x hx
      exact List.mem_of_mem_filter (hf ▸ hx)
    have hprompt : ∀ x ∈ e :: cls, isNumJ x.promptTokens = true :=
      fun x hx => (entryNumeric_fields (hnum x (hmemcls x hx))).1
    have hcompl : ∀ x ∈ e :: cls, isNumJ x.completionTokens = true :=
      fun x hx => (entryNumeric_fields (hnum x (hmemcls x hx))).2.1
    have htotal : ∀ x ∈ e :: cls, isNumJ x.totalTokens = true :=
      fun x hx => (entryNumeric_fields (hnum x (hmemcls x hx))).2.2
    rw [hf]
    refine ⟨?_, ?_, ?_⟩
    · rw [req, foldl_addTokens_tok (fun u => u.promptTokens) (fun _ _ => rfl) cls e
          (fun x hx => hprompt x (List.mem_cons_of_mem _ hx))
          (hprompt e (List.mem_cons_self _ _))]
      simp [List.map_cons, List.sum_cons]
    · rw [req, foldl_addTokens_tok (fun u => u.completionTokens) (fun _ _ => rfl) cls e
          (fun x hx => hcompl x (List.mem_cons_of_mem _ hx))
          (hcompl e (List.mem_cons_self _ _))]
      simp [List.map_cons, List.sum_cons]
    · rw [req, foldl_addTokens_tok (fun u => u.totalTokens) (fun _ _ => rfl) cls e
          (fun x hx => htotal x (List.mem_cons_of_mem _ hx))
          (htotal e (List.mem_cons_self _ _))]
      simp [List.map_cons, List.sum_cons]

/-- Witness for C4 (amended): the key-coverage part at a concrete
execution. -/
theorem c4_amended_dedup_by_string_key_witness :
    (llmRunUsage "n" 1 2 3 ∈ extractEntries (llmRunExec "n" 1 2 3)) ∧
    ∃ r ∈ (extractTokenUsage (llmRunExec "n" 1 2 3)).nodes,
        usageKey r = usageKey (llmRunUsage "n" 1 2 3) :=
  ⟨by decide,
    (c4_amended_dedup_by_string_key (llmRunExec "n" 1 2 3)).2.2.1
      (llmRunUsage "n" 1 2 3) (by decide)⟩

/-! ## C8: totals equal the element-wise sums over the final node list -/

/-- C8: when every extracted token field is a number, the running totals
(accumulated over the pre-dedup entries) equal the element-wise sums of
the three token fields over the returned, deduplicated `nodes` list —
the accumulate-on-collision merge preserves each of the three sums. -/
theorem c8_totals_equal_node_sums (execution : JsonV)
    (h : (extractEntries execution).all entryNumeric = true) :
    (extractTokenUsage execution).totals.promptTokens =
      .num (((extractTokenUsage execution).nodes.map (fun r => toIntJ r.promptTokens)).sum) ∧
    (extractTokenUsage execution).totals.completionTokens =
      .num (((extractTokenUsage execution).nodes.map (fun r => toIntJ r.completionTokens)).sum) ∧
    (extractTokenUsage execution).totals.totalTokens =
      .num (((extractTokenUsage execution).nodes.map (fun r => toIntJ r.totalTokens)).sum) := by
  have hall : ∀ e ∈ extractEntries execution, entryNumeric e = true := List.all_eq_true.mp h
  have hp : ∀ e ∈ extractEntries execution, isNumJ e.promptTokens = true :=
    fun e he => (entryNumeric_fields (hall e he)).1
  have hc : ∀ e ∈ extractEntries execution, isNumJ e.completionTokens = true :=
    fun e he => (entryNumeric_fields (hall e he)).2.1
  have ht : ∀ e ∈ extractEntries execution, isNumJ e.totalTokens = true :=
    fun e he => (entryNumeric_fields (hall e he)).2.2
  have hnodes : (extractTokenUsage execution).nodes = dedupNodes (extractEntries execution) := rfl
  refine ⟨?_, ?_, ?_⟩
  · rw [show (extractTokenUsage execution).totals.promptTokens =
        sumTokens (fun e => e.promptTokens) (extractEntries execution) from rfl]
    unfold sumTokens
    rw [foldl_jsAdd_num _ _ 0 hp, hnodes,
        dedupNodes_sum (fun u => u.promptTokens) (fun _ _ => rfl) _ hp]
    simp
  · rw [show (extractTokenUsage execution).totals.completionTokens =
        sumTokens (fun e => e.completionTokens) (extractEntries execution) from rfl]
    unfold sumTokens
    rw [foldl_jsAdd_num _ _ 0 hc, hnodes,
        dedupNodes_sum (fun u => u.completionTokens) (fun _ _ => rfl) _ hc]
    simp
  · rw [show (extractTokenUsage execution).totals.totalTokens =
        sumTokens (fun e => e.totalTokens) (extractEntries execution) from rfl]
    unfold sumTokens
    rw [foldl_jsAdd_num _ _ 0 ht, hnodes,
        dedupNodes_sum (fun u => u.totalTokens) (fun _ _ => rfl) _ ht]
    simp

/-! ## C3: the two mutating update paths -/

theorem jsGet_setFieldFs_self :
    ∀ (fs : List (String × JsonV)) (k : String) (x : JsonV),
      jsGet (.obj (setFieldFs fs k x)) k = x := by
  intro fs
  induction fs with
  | nil => intro k x; simp [setFieldFs]
  | cons f fs ih =>
    intro k x
    obtain ⟨k', v⟩ := f
    by_cases h : k' = k
    · rw [setFieldFs, if_pos h]
      simp [h]
    · rw [setFieldFs, if_neg h]
      simp only [jsGet_obj_cons, if_neg h]
      exact ih k x

theorem jsGet_setFieldFs_other :
    ∀ (fs : List (String × JsonV)) (k : String) (x : JsonV) (k' : String), k ≠ k' →
      jsGet (.obj (setFieldFs fs k x)) k' = jsGet (.obj fs) k' := by
  intro fs
  induction fs with
  | nil =>
    intro k x k' hne
    simp [setFieldFs, hne]
  | cons f fs ih =>
    intro k x k' hne
    obtain ⟨kf, v⟩ := f
    by_cases h : kf = k
    · rw [setFieldFs, if_pos h]
      have : ¬ (kf = k') := fun hc => hne (h ▸ hc : k = k')
      simp only [jsGet_obj_cons, if_neg this]
    · rw [setFieldFs, if_neg h]
      by_cases hk' : kf = k'
      · simp only [jsGet_obj_cons, if_pos hk']
      · simp only [jsGet_obj_cons, if_neg hk']
        exact ih k x k' hne

theorem obj_of_truthy_get {v : JsonV} {k : String} (h : jsTruthy (jsGet v k) = true) :
    ∃ fs, v = .obj fs := by
  cases v <;> first | exact ⟨_, rfl⟩ | simp at h

theorem credsFind_credsSet :
    ∀ (m : List (JsonV × JsonV)) (k c x : JsonV),
      credsFind (credsSet m k c) x = if x = k then some c else credsFind m x := by
  intro m
  induction m with
  | nil =>
    intro k c x
    by_cases h : x = k
    · simp [credsSet, credsFind, List.find?, h]
    · have h' : ¬ (k = x) := fun hc => h hc.symm
      simp [credsSet, credsFind, List.find?, h, h']
  | cons p m ih =>
    intro k c x
    obtain ⟨k', c'⟩ := p
    by_cases hk : k' = k
    · rw [credsSet, if_pos hk]
      by_cases hx : x = k
      · have : k' = x := hk.trans hx.symm
        simp [credsFind, List.find?, this, hx]
      · have : ¬ (k' = x) := fun hc => hx (hc.symm.trans hk)
        simp [credsFind, List.find?, this, hx]
    · rw [credsSet, if_neg hk]
      by_cases hx : k' = x
      · have : ¬ (x = k) := fun hc => hk (hx.trans hc)
        simp [credsFind, List.find?, hx, this]
      · have hIH := ih k c x
        simp only [credsFind, List.find?] at hIH ⊢
        simp only [show (decide (k' = x)) = false by simp [hx]]
        exact hIH

theorem credsFind_buildCredsMap_aux :
    ∀ (nodes : List JsonV) (acc : List (JsonV × JsonV)) (x : JsonV),
      credsFind
        (nodes.foldl
          (fun m node =>
            if jsTruthy (jsGet node "credentials") then
              credsSet m (jsGet node "name") (jsGet node "credentials")
            else m)
          acc) x =
      match (nodes.filter (fun n =>
          jsTruthy (jsGet n "credentials") && decide (jsGet n "name" = x))).getLast? with
      | some n => some (jsGet n "credentials")
      | none => credsFind acc x := by
  intro nodes
  induction nodes with
  | nil => intro acc x; rfl
  | cons n ns ih =>
    intro acc x
    rw [List.foldl_cons, ih, List.filter_cons]
    by_cases hcred : jsTruthy (jsGet n "credentials") = true
    · rw [if_pos hcred]
      by_cases hname : jsGet n "name" = x
      · rw [if_pos (by simp [hcred, hname])]
        cases hfl : List.filter (fun y =>
            jsTruthy (jsGet y "credentials") && decide (jsGet y "name" = x)) ns with
        | nil =>
          simp only [hfl, List.getLast?_nil, List.getLast?_singleton, credsFind_credsSet]
          simp [hname]
        | cons m ms =>
          simp only [hfl, List.getLast?_cons_cons]
          cases hgl : (m :: ms).getLast? with
          | none => simp [List.getLast?_eq_none_iff] at hgl
          | some v => simp only [hgl]
      · rw [if_neg (by simp [hname])]
        cases hfl : List.filter (fun y =>
            jsTruthy (jsGet y "credentials") && decide (jsGet y "name" = x)) ns with
        | nil =>
          simp only [hfl, List.getLast?_nil, credsFind_credsSet]
          rw [if_neg (show ¬(x = jsGet n "name") from fun hc => hname hc.symm)]
        | cons m ms =>
          try simp only [hfl]
          cases hgl : (m :: ms).getLast? with
          | none => simp [List.getLast?_eq_none_iff] at hgl
          | some v => simp only [hgl]
    · rw [if_neg hcred, if_neg (by simp [hcred])]

/-- Counterexample to C3 as stated: the `workflow update` path
(cli.js 335–355) performs the name-keyed credentials merge but sends the
file's top-level fields through UNstripped, so a payload carrying an
extra field (here `active`) reaches the platform with it — the claim
that every mutating update payload contains only
`{name, nodes, connections, settings}` is false on this path. -/
theorem c3_counterexample_update_path_unstripped :
    "active" ∈ topKeys (buildUpdatePayload
      (.obj [("name", .str "w"), ("nodes", .arr []), ("connections", .obj []),
             ("settings", .obj []), ("active", .bool true)])
      (.obj [("nodes", .arr [])])) ∧
    ¬ ("active" ∈ acceptedTopFields) ∧
    ¬ (∀ k ∈ topKeys (buildUpdatePayload
      (.obj [("name", .str "w"), ("nodes", .arr []), ("connections", .obj []),
             ("settings", .obj []), ("active", .bool true)])
      (.obj [("nodes", .arr [])])), k ∈ acceptedTopFields) := by
  decide

/-- C3 (amended): the two mutating paths each do one half of the claimed
sanitising. The `set-code` payload contains exactly the top-level fields
`{name, nodes, connections, settings}`, with each node projected onto a
fixed eight-field shape that preserves its `credentials` and `name`. The
`workflow update` payload passes every top-level field of the input file
through unchanged apart from `nodes`; its nodes keep their own truthy
`credentials`, and a node without truthy credentials receives the map
entry for its `name`, where the map holds, per name, the credentials of
the LAST node of the previously fetched workflow carrying truthy
credentials under that name (name-keyed, not id-keyed). -/
theorem c3_amended_payload_shapes :
    (∀ w : JsonV, topKeys (buildSetCodePayload w) = acceptedTopFields) ∧
    (∀ n : JsonV,
      topKeys (stripNode n) =
        ["id", "name", "type", "typeVersion", "position", "parameters",
         "credentials", "webhookId"] ∧
      jsGet (stripNode n) "credentials" = jsGet n "credentials" ∧
      jsGet (stripNode n) "name" = jsGet n "name") ∧
    (∀ (wd ex : JsonV) (k : String), k ≠ "nodes" →
      jsGet (buildUpdatePayload wd ex) k = jsGet wd k) ∧
    (∀ (wd ex : JsonV), jsTruthy (jsGet wd "nodes") = true →
      jsGet (buildUpdatePayload wd ex) "nodes" =
        .arr ((jsElems (jsGet wd "nodes")).map
          (mergeNodeCreds (buildCredsMap (jsElems (jsGet ex "nodes")))))) ∧
    (∀ (m : List (JsonV × JsonV)) (node : JsonV),
      (jsTruthy (jsGet node "credentials") = true → mergeNodeCreds m node = node) ∧
      (jsTruthy (jsGet node "credentials") = false →
        mergeNodeCreds m node =
          match credsFind m (jsGet node "name") with
          | some c => jsSetField node "credentials" c
          | none => node)) ∧
    (∀ (fs : List (String × JsonV)) (c : JsonV),
      jsGet (jsSetField (.obj fs) "credentials" c) "credentials" = c ∧
      (∀ k, k ≠ "credentials" →
        jsGet (jsSetField (.obj fs) "credentials" c) k = jsGet (.obj fs) k)) ∧
    (∀ (nodes : List JsonV) (x : JsonV),
      credsFind (buildCredsMap nodes) x =
        match (nodes.filter (fun n =>
            jsTruthy (jsGet n "credentials") && decide (jsGet n "name" = x))).getLast? with
        | some n => some (jsGet n "credentials")
        | none => none) := by
  refine ⟨fun w => rfl, fun n => ⟨rfl, rfl, rfl⟩, ?_, ?_, ?_, ?_, ?_⟩
  · intro wd ex k hk
    unfold buildUpdatePayload
    by_cases hn : jsTruthy (jsGet wd "nodes") = true
    · rw [if_pos hn]
      obtain ⟨fs, rfl⟩ := obj_of_truthy_get hn
      exact jsGet_setFieldFs_other fs "nodes" _ k (fun hc => hk hc.symm)
    · rw [if_neg hn]
  · intro wd ex hn
    unfold buildUpdatePayload
    rw [if_pos hn]
    obtain ⟨fs, rfl⟩ := obj_of_truthy_get hn
    exact jsGet_setFieldFs_self fs "nodes" _
  · intro m node
    constructor
    · intro h
      unfold mergeNodeCreds
      rw [if_pos h]
    · intro h
      unfold mergeNodeCreds
      rw [if_neg (by simp [h])]
  · intro fs c
    exact ⟨jsGet_setFieldFs_self fs "credentials" c,
      fun k hk => jsGet_setFieldFs_other fs "credentials" c k (fun hc => hk hc.symm)⟩
  · intro nodes x
    unfold buildCredsMap
    rw [credsFind_buildCredsMap_aux]
    cases (nodes.filter (fun n =>
        jsTruthy (jsGet n "credentials") && decide (jsGet n "name" = x))).getLast? <;> rfl

/-- Witness for C3 (amended): pass-through of a non-`nodes` top-level
field at a concrete payload. -/
theorem c3_amended_payload_shapes_witness :
    ("name" : String) ≠ "nodes" ∧
    jsGet (buildUpdatePayload
      (.obj [("name", .str "w"), ("nodes", .arr []), ("active", .bool true)])
      (.obj [("nodes", .arr [])])) "name" =
      jsGet (.obj [("name", .str "w"), ("nodes", .arr []), ("active", .bool true)]) "name" :=
  ⟨by decide,
    c3_amended_payload_shapes.2.2.1
      (.obj [("name", .str "w"), ("nodes", .arr []), ("active", .bool true)])
      (.obj [("nodes", .arr [])]) "name" (by decide)⟩

/-- Witness for C8 at a concrete all-numeric execution. -/
theorem c8_totals_equal_node_sums_witness :
    (extractEntries (llmRunExec "n" 1 2 3)).all entryNumeric = true ∧
    (extractTokenUsage (llmRunExec "n" 1 2 3)).totals.promptTokens =
      .num (((extractTokenUsage (llmRunExec "n" 1 2 3)).nodes.map
        (fun r => toIntJ r.promptTokens)).sum) :=
  ⟨by decide, (c8_totals_equal_node_sums (llmRunExec "n" 1 2 3) (by decide)).1⟩
